import Mathlib

/-!
Shallow embedding of the text-analysis pipeline of `src/ejemplo.py`
(a Wikipedia scraping / NLP frequency-analysis script).

Python strings are modelled as Lean `String` / `List Char`.  The regular
expressions of the script are modelled character by character; the
character classes model the ASCII fragment of Python's `\w` / `\s`
(the tokenizer's own alphabet is the ASCII class `[a-zA-Z]`, so this is
the fragment the script's logic actually distinguishes).  `spaCy` is an
external collaborator and is modelled as an injected tagger producing
tokens with the fields the script reads (`text`, `lemma_`, `pos_`,
`is_alpha`, `is_stop`).  Network and spreadsheet I/O are external; the
control flow of `main` over their outcomes is modelled explicitly.
-/

namespace Ejemplo

/-- ASCII letter: the regex class `[a-zA-Z]` of `ejemplo.py` line 119. -/
def isAsciiLetter (c : Char) : Bool :=
  (decide ('a' ≤ c) && decide (c ≤ 'z')) || (decide ('A' ≤ c) && decide (c ≤ 'Z'))

/-- Word character, for Python's regex word boundary `\b`: letter, digit or
underscore (the ASCII fragment of Python's Unicode-aware `\w`). -/
def isWordChar (c : Char) : Bool := isAsciiLetter c || c.isDigit || c == '_'

/-- Whitespace for Python's regex `\s` and `str.strip` (the ASCII whitespace
characters: space, tab, newline, carriage return, form feed, vertical tab). -/
def isPySpace (c : Char) : Bool :=
  c == ' ' || c == '\t' || c == '\n' || c == '\r' || c == '\x0c' || c == '\x0b'

/-- Python `str.lower` on the ASCII alphabet the script distinguishes. -/
def pyToLower (c : Char) : Char := c.toLower

/-- `re.sub(r"\[.*?\]", "", s)` (`ejemplo.py` line 55), scanning character by
character.  The second argument is `none` outside a candidate reference and
`some pending` after a so far unmatched `[`, holding (reversed) that `[` and
the characters scanned since.  A `]` closes the candidate (the lazy `.*?`
stops at the first `]`) and the whole match is dropped.  Since `.` does not
match a newline, a `[` whose first following `]` lies beyond a newline (or
beyond the end of the input) matches nothing; the pending characters are
then emitted unchanged and scanning resumes after them — none of the skipped
positions can start a match, because a `[` among them would meet the same
newline or end of input before any `]`. -/
def quitarReferencias : List Char → Option (List Char) → List Char
  | [], none => []
  | [], some pending => pending.reverse
  | c :: cs, none =>
      if c == '[' then quitarReferencias cs (some [c])
      else c :: quitarReferencias cs none
  | c :: cs, some pending =>
      if c == ']' then quitarReferencias cs none
      else if c == '\n' then pending.reverse ++ c :: quitarReferencias cs none
      else quitarReferencias cs (some (c :: pending))

/-- `re.sub(r"\s+", " ", s)` (`ejemplo.py` line 59): every maximal run of
whitespace becomes one space.  The flag records whether the previous
character was whitespace. -/
def colapsarEspacios : List Char → Bool → List Char
  | [], _ => []
  | c :: cs, enEspacio =>
      if isPySpace c then
        if enEspacio then colapsarEspacios cs true
        else ' ' :: colapsarEspacios cs true
      else c :: colapsarEspacios cs false

/-- Python `str.strip()`: drop leading and trailing whitespace. -/
def pyStrip (l : List Char) : List Char :=
  ((l.dropWhile isPySpace).reverse.dropWhile isPySpace).reverse

/-- The data-cleaning step of `scrapear_wikipedia` (`ejemplo.py` lines 53-59):
remove bracketed references, collapse whitespace runs, strip. -/
def limpiarTexto (l : List Char) : List Char :=
  pyStrip (colapsarEspacios (quitarReferencias l none) false)

/-- Whether the list contains an opening bracket with a closing bracket
somewhere after it, i.e. a substring of the shape `[` … `]`. -/
def hasBracketPair : List Char → Bool
  | [] => false
  | c :: cs => if c == '[' then cs.contains ']' else hasBracketPair cs

/-- `re.findall(r'\b[a-zA-Z]+\b', s)` (`ejemplo.py` line 119) as a left-to-right
scan.  `prevWord` records whether the previous character was a word character
(`\b` holds exactly between a word and a non-word position); `run` holds the
current candidate match, reversed: a maximal-so-far letter run that started at
a word boundary.  A candidate is emitted when it ends at a word boundary (end
of input or a non-word character); it is discarded when a digit or underscore
follows it, because then no position inside the letter run satisfies the
trailing and leading `\b` at once and the scan continues after the run. -/
def scanAux : List Char → Bool → List Char → List (List Char)
  | [], _, run => if run.isEmpty then [] else [run.reverse]
  | c :: cs, prevWord, run =>
      match run with
      | [] =>
          if isAsciiLetter c && !prevWord then scanAux cs true [c]
          else scanAux cs (isWordChar c) []
      | _ =>
          if isAsciiLetter c then scanAux cs true (c :: run)
          else if isWordChar c then scanAux cs true []
          else run.reverse :: scanAux cs false []

/-- The Latin tokenizer (`ejemplo.py` line 119):
`re.findall(r'\b[a-zA-Z]+\b', texto.lower())`. -/
def tokenizarLatin (texto : String) : List String :=
  (scanAux (texto.data.map pyToLower) false []).map (fun r => String.mk r)

/-- Maximal runs of characters satisfying `p`, with an accumulator holding
the current (reversed) run. -/
def runsBy (p : Char → Bool) : List Char → List Char → List (List Char)
  | [], acc => if acc.isEmpty then [] else [acc.reverse]
  | c :: cs, acc =>
      if p c then runsBy p cs (c :: acc)
      else if acc.isEmpty then runsBy p cs []
      else acc.reverse :: runsBy p cs []

/-- Modelled from the spec's words for claim C3 (before amendment): lowercase
the text and take as tokens exactly the maximal runs of ASCII letters. -/
def specMaximalLetterRuns (texto : String) : List String :=
  (runsBy isAsciiLetter (texto.data.map pyToLower) []).map (fun r => String.mk r)

/-- The amended description of the Latin tokenizer: lowercase the text and
take exactly those maximal runs of word characters (letter, digit or
underscore) that consist entirely of ASCII letters. -/
def amendedTokens (texto : String) : List String :=
  ((runsBy isWordChar (texto.data.map pyToLower) []).filter
      (fun r => r.all isAsciiLetter)).map (fun r => String.mk r)

/-! ### `collections.Counter` and `most_common`

`Counter(xs)` keeps its keys in order of first insertion (CPython dict
semantics), and `Counter.most_common(n)` is `heapq.nlargest` over the items
keyed by count, which is a *stable* descending sort truncated to `n`
(documented as equivalent to `sorted(items, key=count, reverse=True)[:n]`).
The model: distinct elements in order of first occurrence, paired with their
multiplicities, stably sorted by non-increasing count, first `n` taken. -/

/-- Distinct elements of `xs` in order of first occurrence (the key order of
`collections.Counter(xs)`). -/
def firstDedup (xs : List String) : List String :=
  xs.foldl (fun acc x => if x ∈ acc then acc else acc ++ [x]) []

/-- The items of `collections.Counter(xs)`: each distinct element, in first
occurrence order, with its multiplicity. -/
def counterItems (xs : List String) : List (String × Nat) :=
  (firstDedup xs).map (fun t => (t, xs.count t))

/-- Insert an entry into a list sorted by non-increasing count, after every
entry of count ≥ its own (the placement a stable descending sort gives the
latest-inserted entry). -/
def insertCountDesc (p : String × Nat) : List (String × Nat) → List (String × Nat)
  | [] => [p]
  | q :: qs => if p.2 ≤ q.2 then q :: insertCountDesc p qs else p :: q :: qs

/-- Stable sort by non-increasing count (insertion sort, left to right). -/
def sortCountDesc (l : List (String × Nat)) : List (String × Nat) :=
  l.foldl (fun acc p => insertCountDesc p acc) []

/-- `collections.Counter(xs).most_common(n)` (`ejemplo.py` lines 94-97 and
143-146): the `n` most frequent distinct elements with their counts,
by non-increasing count, ties kept in first-occurrence order. -/
def mostCommon (xs : List String) (n : Nat) : List (String × Nat) :=
  (sortCountDesc (counterItems xs)).take n

/-! ### The Latin analyzer (`analizar_texto_latin_basico`, lines 103-146) -/

/-- The Latin stopword set of `ejemplo.py` lines 110-116. -/
def stopwords_latin : List String :=
  ["et", "in", "de", "ad", "non", "ut", "cum", "per", "sed",
   "qui", "quae", "quod", "est", "sunt", "fuit", "ex", "ab",
   "se", "is", "ea", "id", "ac", "atque", "aut", "autem",
   "enim", "etiam", "ibi", "iam", "ita", "nam", "ne", "nec",
   "nunc", "quam", "quia", "sic", "tam", "tamen", "ubi", "vel"]

/-- The verb-suffix tuple of `ejemplo.py` lines 128-132. -/
def terminaciones_verbos : List String :=
  ["are", "ere", "ire", "sse",
   "at", "et", "it", "ant", "ent", "unt", "bat", "bant",
   "avit", "evit", "ivit"]

/-- Python `p.endswith(t)` for strings. -/
def pyEndsWith (p : String) (t : String) : Bool := t.data.isSuffixOf p.data

/-- `p.endswith(terminaciones_verbos)` (`ejemplo.py` line 138): true when `p`
ends with any suffix of the tuple. -/
def esVerbo (p : String) : Bool := terminaciones_verbos.any (fun t => pyEndsWith p t)

/-- The token filter of `ejemplo.py` lines 121-124: keep tokens that are not
stopwords and have length > 2. -/
def palabrasFiltradas (texto : String) : List String :=
  (tokenizarLatin texto).filter
    (fun p => !stopwords_latin.contains p && decide (2 < p.length))

/-- One iteration of the classification loop of `ejemplo.py` lines 137-141:
append the token to the verb bucket when it ends with a verb suffix and to
the word bucket otherwise.  The accumulator is `(lista_palabras, lista_verbos)`. -/
def latinStep (acc : List String × List String) (p : String) : List String × List String :=
  if esVerbo p then (acc.1, acc.2 ++ [p]) else (acc.1 ++ [p], acc.2)

/-- The classification loop over the filtered tokens, returning
`(lista_palabras, lista_verbos)`. -/
def latinBuckets (fp : List String) : List String × List String :=
  fp.foldl latinStep ([], [])

/-- `analizar_texto_latin_basico(texto, top_n)` (`ejemplo.py` lines 103-146):
tokenize, filter, classify by suffix, and return the ranked word and verb
frequencies, word bucket first. -/
def analizar_texto_latin_basico (texto : String) (top_n : Nat) :
    List (String × Nat) × List (String × Nat) :=
  let fp := palabrasFiltradas texto
  let buckets := latinBuckets fp
  (mostCommon buckets.1 top_n, mostCommon buckets.2 top_n)

/-! ### The English analyzer (`analizar_texto_ingles`, lines 71-97)

`spaCy` is the injected part-of-speech tagger; a tagged document is a list
of tokens carrying exactly the attributes the script reads. -/

/-- A token as produced by the injected tagger (the fields of a `spaCy`
token that `analizar_texto_ingles` reads). -/
structure SpacyToken where
  text : String
  lemma_ : String
  pos_ : String
  is_alpha : Bool
  is_stop : Bool

/-- The acceptance filter of `ejemplo.py` line 85:
`token.is_alpha and not token.is_stop and len(token.text) > 2`. -/
def aceptado (t : SpacyToken) : Bool :=
  t.is_alpha && !t.is_stop && decide (2 < t.text.length)

/-- Python `s.lower()` on a whole string (ASCII lowering). -/
def pyLower (s : String) : String := String.mk (s.data.map pyToLower)

/-- One iteration of the bucketing loop of `ejemplo.py` lines 83-92.  The
accumulator is `(palabras, verbos)`; an accepted token's lowercased lemma
goes to the verb bucket on tag `VERB`, to the word bucket on tag `NOUN`,
`PROPN` or `ADJ`, and nowhere otherwise. -/
def englishStep (acc : List String × List String) (t : SpacyToken) :
    List String × List String :=
  if aceptado t then
    let lema := pyLower t.lemma_
    if t.pos_ == "VERB" then (acc.1, acc.2 ++ [lema])
    else if ["NOUN", "PROPN", "ADJ"].contains t.pos_ then (acc.1 ++ [lema], acc.2)
    else acc
  else acc

/-- The bucketing loop over a tagged document, returning `(palabras, verbos)`. -/
def englishBuckets (doc : List SpacyToken) : List String × List String :=
  doc.foldl englishStep ([], [])

/-- `analizar_texto_ingles(texto, top_n)` (`ejemplo.py` lines 71-97) with the
tagger's output injected: bucket the accepted lemmas and return the ranked
word and verb frequencies, word bucket first. -/
def analizar_texto_ingles (doc : List SpacyToken) (top_n : Nat) :
    List (String × Nat) × List (String × Nat) :=
  let buckets := englishBuckets doc
  (mostCommon buckets.1 top_n, mostCommon buckets.2 top_n)

/-! ### `scrapear_wikipedia` and `main` (lines 29-65, 152-163) -/

/-- Outcome of the network fetch and parse for one URL, as far as
`scrapear_wikipedia` can observe it: either the `try` block raised
(any exception — network, HTTP status, parsing), or a parsed page with an
optional `firstHeading` title and an optional `bodyContent` element holding
the extracted paragraph texts. -/
inductive FetchOutcome where
  | exn : FetchOutcome
  | page : Option String → Option (List String) → FetchOutcome

/-- `scrapear_wikipedia` (`ejemplo.py` lines 29-65): on an exception, return
`(None, None)`; with no `bodyContent` element, return the title and `""`;
otherwise join the paragraphs with newlines and clean the text. -/
def scrapear_wikipedia : FetchOutcome → Option String × Option String
  | FetchOutcome.exn => (none, none)
  | FetchOutcome.page tituloTag contenido =>
      let titulo := match tituloTag with
        | some s => String.mk (pyStrip s.data)
        | none => "Sin Título"
      match contenido with
      | none => (some titulo, some "")
      | some parrafos =>
          (some titulo,
           some (String.mk (limpiarTexto (String.intercalate "\n" parrafos).data)))

/-- Python truthiness of the `texto` results in `main` line 161
(`if not texto_en or not texto_la`): `None` and `""` are falsy. -/
def pyTruthy : Option String → Bool
  | none => false
  | some s => !(s == "")

/-- The control flow of `main` (`ejemplo.py` lines 152-167): scrape both
pages, abort (no analysis, no report) unless both texts are truthy, and
otherwise run both analyses with the default `top_n = 15`.  The English
tagger is the injected collaborator `tagger`. -/
def mainModel (tagger : String → List SpacyToken) (o_en o_la : FetchOutcome) :
    Option ((List (String × Nat) × List (String × Nat)) ×
            (List (String × Nat) × List (String × Nat))) :=
  let texto_en := (scrapear_wikipedia o_en).2
  let texto_la := (scrapear_wikipedia o_la).2
  if pyTruthy texto_en && pyTruthy texto_la then
    some (analizar_texto_ingles (tagger (texto_en.getD "")) 15,
          analizar_texto_latin_basico (texto_la.getD "") 15)
  else none

/-! ### Lemmas about the text cleaner -/

/-- Absence of consecutive whitespace characters: adjacent characters are
never both whitespace. -/
def noTwoSpaces (l : List Char) : Prop :=
  List.Chain' (fun a b => isPySpace a = false ∨ isPySpace b = false) l

theorem mem_close_of_hasBracketPair :
    ∀ {l : List Char}, hasBracketPair l = true → ']' ∈ l := by
  intro l
  induction l with
  | nil => intro h; simp [hasBracketPair] at h
  | cons c cs ih =>
      intro h
      by_cases hc : c == '['
      · simp only [hasBracketPair, hc, if_true] at h
        exact List.mem_cons_of_mem _ (by simpa using h)
      · simp only [hasBracketPair, hc, if_false] at h
        exact List.mem_cons_of_mem _ (ih h)

theorem hasBracketPair_eq_false_of_not_mem {l : List Char} (h : ']' ∉ l) :
    hasBracketPair l = false := by
  cases hb : hasBracketPair l with
  | false => rfl
  | true => exact absurd (mem_close_of_hasBracketPair hb) h

theorem hasBracketPair_of_sublist :
    ∀ {l₁ l₂ : List Char}, l₁.Sublist l₂ → hasBracketPair l₁ = true →
      hasBracketPair l₂ = true := by
  intro l₁ l₂ h
  induction h with
  | slnil => intro h; simp [hasBracketPair] at h
  | cons c _ ih =>
      intro h1
      by_cases hc : c == '['
      · simp only [hasBracketPair, hc, if_true]
        simpa using mem_close_of_hasBracketPair (ih h1)
      · simpa only [hasBracketPair, hc, if_false] using ih h1
  | @cons₂ m₁ m₂ c hsub ih =>
      intro h1
      by_cases hc : c == '['
      · simp only [hasBracketPair, hc, if_true] at h1 ⊢
        exact by simpa using hsub.subset (by simpa using h1)
      · simp only [hasBracketPair, hc, if_false] at h1 ⊢
        exact ih h1

theorem hasBracketPair_eq_false_of_sublist {l₁ l₂ : List Char}
    (h : l₁.Sublist l₂) (h2 : hasBracketPair l₂ = false) :
    hasBracketPair l₁ = false := by
  cases h1 : hasBracketPair l₁ with
  | false => rfl
  | true => rw [hasBracketPair_of_sublist h h1] at h2; cases h2

theorem quitarReferencias_bracket_free :
    ∀ l : List Char, '\n' ∉ l →
      hasBracketPair (quitarReferencias l none) = false ∧
      ∀ pending, ']' ∉ pending →
        hasBracketPair (quitarReferencias l (some pending)) = false := by
  intro l
  induction l with
  | nil =>
      intro _
      refine ⟨rfl, fun pending hp => ?_⟩
      exact hasBracketPair_eq_false_of_not_mem (by simpa [quitarReferencias] using hp)
  | cons c cs ih =>
      intro h
      have hc_nl : ¬(c = '\n') := fun he => h (he ▸ List.mem_cons_self c cs)
      have hcs : '\n' ∉ cs := fun hm => h (List.mem_cons_of_mem _ hm)
      refine ⟨?_, fun pending hp => ?_⟩
      · by_cases hc : c == '['
        · have hce : c = '[' := by simpa using hc
          subst hce
          simp only [quitarReferencias, if_true]
          exact (ih hcs).2 ['['] (by decide)
        · simp only [quitarReferencias, hc, if_false]
          show hasBracketPair (c :: quitarReferencias cs none) = false
          by_cases hcb : c == '['
          · exact absurd hcb hc
          · simpa only [hasBracketPair, hcb, if_false] using (ih hcs).1
      · by_cases hc1 : c == ']'
        · simp only [quitarReferencias, hc1, if_true]
          exact (ih hcs).1
        · have hc2 : (c == '\n') = false := by
            cases hb : c == '\n' with
            | false => rfl
            | true => exact absurd (by simpa using hb) hc_nl
          simp only [quitarReferencias, hc1, if_false, hc2]
          refine (ih hcs).2 (c :: pending) ?_
          intro hm
          rcases List.mem_cons.mp hm with he | hm2
          · exact hc1 (by simp [he.symm])
          · exact hp hm2

theorem mem_colapsarEspacios :
    ∀ (l : List Char) (flag : Bool) (c : Char),
      c ∈ colapsarEspacios l flag → c = ' ' ∨ c ∈ l := by
  intro l
  induction l with
  | nil => intro flag c h; simp [colapsarEspacios] at h
  | cons d cs ih =>
      intro flag c h
      by_cases hd : isPySpace d
      · cases flag with
        | true =>
            simp only [colapsarEspacios, hd, if_true] at h
            rcases ih true c h with h1 | h1
            · exact Or.inl h1
            · exact Or.inr (List.mem_cons_of_mem _ h1)
        | false =>
            simp only [colapsarEspacios, hd, if_true] at h
            rcases List.mem_cons.mp h with h1 | h1
            · exact Or.inl h1
            · rcases ih true c h1 with h2 | h2
              · exact Or.inl h2
              · exact Or.inr (List.mem_cons_of_mem _ h2)
      · simp only [colapsarEspacios, hd, Bool.false_eq_true, if_false] at h
        rcases List.mem_cons.mp h with h1 | h1
        · exact Or.inr (h1 ▸ List.mem_cons_self d cs)
        · rcases ih false c h1 with h2 | h2
          · exact Or.inl h2
          · exact Or.inr (List.mem_cons_of_mem _ h2)

theorem hasBracketPair_colapsarEspacios :
    ∀ (l : List Char) (flag : Bool), hasBracketPair l = false →
      hasBracketPair (colapsarEspacios l flag) = false := by
  intro l
  induction l with
  | nil => intro flag _; cases flag <;> rfl
  | cons d cs ih =>
      intro flag h
      by_cases hd : isPySpace d
      · have hdb : (d == '[') = false := by
          cases hb : d == '[' with
          | false => rfl
          | true =>
              have : d = '[' := by simpa using hb
              rw [this] at hd; simp [isPySpace] at hd
        have hcs : hasBracketPair cs = false := by
          simpa only [hasBracketPair, hdb, if_false] using h
        cases flag with
        | true => simpa only [colapsarEspacios, hd, if_true] using ih true hcs
        | false =>
            simp only [colapsarEspacios, hd, if_true]
            show hasBracketPair (' ' :: colapsarEspacios cs true) = false
            have : ((' ' : Char) == '[') = false := by decide
            simpa only [hasBracketPair, this, if_false] using ih true hcs
      · simp only [colapsarEspacios, hd, Bool.false_eq_true, if_false]
        by_cases hdb : d == '['
        · simp only [hasBracketPair, hdb, if_true] at h ⊢
          have hmem : ']' ∉ cs := by simpa using h
          have : ']' ∉ colapsarEspacios cs false := by
            intro hm
            rcases mem_colapsarEspacios cs false ']' hm with h1 | h1
            · cases h1
            · exact hmem h1
          simpa using this
        · simp only [hasBracketPair, hdb, if_false] at h ⊢
          exact ih false h

theorem head_colapsarEspacios_true :
    ∀ (l : List Char), ∀ c ∈ (colapsarEspacios l true).head?, isPySpace c = false := by
  intro l
  induction l with
  | nil => intro c h; simp [colapsarEspacios] at h
  | cons d cs ih =>
      intro c h
      by_cases hd : isPySpace d
      · simp only [colapsarEspacios, hd, if_true] at h
        exact ih c h
      · simp only [colapsarEspacios, hd, Bool.false_eq_true, if_false,
          List.head?_cons, Option.mem_def, Option.some.injEq] at h
        subst h
        simpa using hd

theorem chain'_colapsarEspacios :
    ∀ (l : List Char) (flag : Bool),
      List.Chain' (fun a b => isPySpace a = false ∨ isPySpace b = false)
        (colapsarEspacios l flag) := by
  intro l
  induction l with
  | nil => intro flag; simp [colapsarEspacios]
  | cons d cs ih =>
      intro flag
      by_cases hd : isPySpace d
      · cases flag with
        | true => simpa only [colapsarEspacios, hd, if_true] using ih true
        | false =>
            simp only [colapsarEspacios, hd, if_true]
            refine List.chain'_cons'.mpr ⟨fun y hy => ?_, ih true⟩
            exact Or.inr (head_colapsarEspacios_true cs y hy)
      · simp only [colapsarEspacios, hd, Bool.false_eq_true, if_false]
        refine List.chain'_cons'.mpr ⟨fun y _ => ?_, ih false⟩
        exact Or.inl (by simpa using hd)

theorem head?_dropWhile_isPySpace :
    ∀ (l : List Char) (c : Char), (l.dropWhile isPySpace).head? = some c →
      isPySpace c = false := by
  intro l
  induction l with
  | nil => intro c h; simp [List.dropWhile] at h
  | cons d cs ih =>
      intro c h
      by_cases hd : isPySpace d
      · rw [List.dropWhile_cons_of_pos hd] at h
        exact ih c h
      · rw [List.dropWhile_cons_of_neg hd] at h
        simp only [List.head?_cons, Option.some.injEq] at h
        subst h
        simpa using hd

theorem pyStrip_decomp (l : List Char) :
    ∃ u v, u ++ pyStrip l ++ v = l := by
  obtain ⟨u, hu⟩ := List.dropWhile_suffix (l := l) isPySpace
  obtain ⟨w, hw⟩ :=
    List.dropWhile_suffix (l := (l.dropWhile isPySpace).reverse) isPySpace
  refine ⟨u, w.reverse, ?_⟩
  have hd : l.dropWhile isPySpace =
      ((l.dropWhile isPySpace).reverse.dropWhile isPySpace).reverse ++ w.reverse := by
    have := congrArg List.reverse hw
    simpa [List.reverse_append] using this.symm
  calc u ++ pyStrip l ++ w.reverse
      = u ++ (pyStrip l ++ w.reverse) := by rw [List.append_assoc]
    _ = u ++ l.dropWhile isPySpace := by rw [pyStrip, ← hd]
    _ = l := hu

theorem pyStrip_sublist (l : List Char) : (pyStrip l).Sublist l := by
  obtain ⟨u, v, huv⟩ := pyStrip_decomp l
  have h1 : (pyStrip l).Sublist (pyStrip l ++ v) := List.sublist_append_left _ _
  have h2 : (pyStrip l ++ v).Sublist (u ++ (pyStrip l ++ v)) :=
    List.sublist_append_right _ _
  have h3 : u ++ (pyStrip l ++ v) = l := by rw [← List.append_assoc, huv]
  simpa only [h3] using h1.trans h2

theorem noTwoSpaces_pyStrip {l : List Char}
    (h : List.Chain' (fun a b => isPySpace a = false ∨ isPySpace b = false) l) :
    noTwoSpaces (pyStrip l) := by
  obtain ⟨u, v, huv⟩ := pyStrip_decomp l
  have h1 : List.Chain' (fun a b => isPySpace a = false ∨ isPySpace b = false)
      (u ++ (pyStrip l ++ v)) := by
    rw [← List.append_assoc, huv]; exact h
  have h2 := (List.chain'_append.mp h1).2.1
  exact (List.chain'_append.mp h2).1

theorem pyStrip_head {l : List Char} {c : Char}
    (h : (pyStrip l).head? = some c) : isPySpace c = false := by
  obtain ⟨w, hw⟩ :=
    List.dropWhile_suffix (l := (l.dropWhile isPySpace).reverse) isPySpace
  have hd : l.dropWhile isPySpace = pyStrip l ++ w.reverse := by
    have := congrArg List.reverse hw
    simpa [pyStrip, List.reverse_append] using this.symm
  have hh : (l.dropWhile isPySpace).head? = some c := by
    rw [hd, List.head?_append, h]; rfl
  exact head?_dropWhile_isPySpace l c hh

theorem pyStrip_getLast {l : List Char} {c : Char}
    (h : (pyStrip l).getLast? = some c) : isPySpace c = false := by
  have h2 : ((l.dropWhile isPySpace).reverse.dropWhile isPySpace).head? = some c := by
    rw [← List.getLast?_reverse]
    simpa [pyStrip] using h
  exact head?_dropWhile_isPySpace _ c h2

/-- Claim C6, counterexample: the claim asserts the cleaner's output never
contains a bracketed substring, but `.` in the lazy pattern `\[.*?\]` does
not match a newline, so the input `"[a\nb]"` survives bracket removal and is
cleaned to `"[a b]"`, which contains an opening bracket, content, and a
closing bracket. -/
theorem claim_C6_counterexample :
    limpiarTexto ("[a\nb]".data) = "[a b]".data ∧
    hasBracketPair (limpiarTexto ("[a\nb]".data)) = true := by
  constructor
  · rfl
  · rfl

/-- Claim C6 (amended): for every raw input that contains no newline
character, the cleaner's output contains no substring consisting of an
opening bracket, any content, and a closing bracket (for inputs with
newlines a bracket pair spanning a newline can survive); unconditionally,
the output contains no two consecutive whitespace characters, has no
leading or trailing whitespace, and empty input yields empty output. -/
theorem claim_C6_cleaner (l : List Char) :
    ('\n' ∉ l → hasBracketPair (limpiarTexto l) = false) ∧
    noTwoSpaces (limpiarTexto l) ∧
    (∀ c, (limpiarTexto l).head? = some c → isPySpace c = false) ∧
    (∀ c, (limpiarTexto l).getLast? = some c → isPySpace c = false) ∧
    limpiarTexto [] = [] := by
  refine ⟨?_, ?_, ?_, ?_, rfl⟩
  · intro h
    have h1 := (quitarReferencias_bracket_free l h).1
    have h2 := hasBracketPair_colapsarEspacios _ false h1
    exact hasBracketPair_eq_false_of_sublist (pyStrip_sublist _) h2
  · exact noTwoSpaces_pyStrip (chain'_colapsarEspacios _ false)
  · intro c hc
    exact pyStrip_head hc
  · intro c hc
    exact pyStrip_getLast hc

/-- Witness for claim C6's theorem at the concrete input `" a  [1]\tb "`,
which cleans to `"a b"`. -/
theorem claim_C6_witness :
    hasBracketPair (limpiarTexto (" a  [1]\tb ".data)) = false ∧
    noTwoSpaces (limpiarTexto (" a  [1]\tb ".data)) ∧
    isPySpace 'a' = false ∧ isPySpace 'b' = false := by
  refine ⟨(claim_C6_cleaner _).1 (by decide), (claim_C6_cleaner _).2.1, ?_, ?_⟩
  · exact (claim_C6_cleaner (" a  [1]\tb ".data)).2.2.1 'a' (by decide)
  · exact (claim_C6_cleaner (" a  [1]\tb ".data)).2.2.2.1 'b' (by decide)

/-! ### Lemmas about the Latin tokenizer -/

theorem isWordChar_of_isAsciiLetter {c : Char} (h : isAsciiLetter c = true) :
    isWordChar c = true := by
  simp [isWordChar, h]

theorem all_reverse_eq_false {acc : List Char} {p : Char → Bool}
    (h : ∃ c ∈ acc, p c = false) : acc.reverse.all p = false := by
  obtain ⟨c, hc, hcp⟩ := h
  cases hall : acc.reverse.all p with
  | false => rfl
  | true =>
      have := List.all_eq_true.mp hall c (List.mem_reverse.mpr hc)
      rw [hcp] at this
      cases this

theorem all_reverse_eq_true {r : List Char} {p : Char → Bool}
    (h : ∀ c ∈ r, p c = true) : r.reverse.all p = true :=
  List.all_eq_true.mpr fun c hc => h c (List.mem_reverse.mp hc)

theorem scan_runs_nil :
    (scanAux [] false [] =
      (runsBy isWordChar [] []).filter (fun r => r.all isAsciiLetter)) ∧
    (∀ acc : List Char, acc ≠ [] → (∃ c ∈ acc, isAsciiLetter c = false) →
      scanAux [] true [] =
        (runsBy isWordChar [] acc).filter (fun r => r.all isAsciiLetter)) ∧
    (∀ r : List Char, r ≠ [] → (∀ c ∈ r, isAsciiLetter c = true) →
      scanAux [] true r =
        (runsBy isWordChar [] r).filter (fun r => r.all isAsciiLetter)) := by
  refine ⟨rfl, ?_, ?_⟩
  · intro acc hne hex
    cases acc with
    | nil => exact absurd rfl hne
    | cons x xs =>
        simp only [scanAux, runsBy, List.isEmpty_cons, Bool.false_eq_true, if_false,
          List.isEmpty_nil, if_true]
        rw [List.filter_cons, all_reverse_eq_false hex]
        simp
  · intro r hne hall
    cases r with
    | nil => exact absurd rfl hne
    | cons x xs =>
        simp only [scanAux, runsBy, List.isEmpty_cons, Bool.false_eq_true, if_false]
        rw [List.filter_cons, all_reverse_eq_true hall]
        simp

theorem scan_runs :
    ∀ n : Nat, ∀ l : List Char, l.length ≤ n →
      (scanAux l false [] =
        (runsBy isWordChar l []).filter (fun r => r.all isAsciiLetter)) ∧
      (∀ acc : List Char, acc ≠ [] → (∃ c ∈ acc, isAsciiLetter c = false) →
        scanAux l true [] =
          (runsBy isWordChar l acc).filter (fun r => r.all isAsciiLetter)) ∧
      (∀ r : List Char, r ≠ [] → (∀ c ∈ r, isAsciiLetter c = true) →
        scanAux l true r =
          (runsBy isWordChar l r).filter (fun r => r.all isAsciiLetter)) := by
  intro n
  induction n with
  | zero =>
      intro l hl
      have : l = [] := List.length_eq_zero.mp (Nat.le_zero.mp hl)
      subst this
      exact scan_runs_nil
  | succ n ih =>
      intro l hl
      cases l with
      | nil => exact scan_runs_nil
      | cons c cs =>
          have hcs : cs.length ≤ n := Nat.le_of_succ_le_succ hl
          refine ⟨?_, ?_, ?_⟩
          · -- scan from a non-word position, no candidate run
            by_cases hlet : isAsciiLetter c = true
            · have hword := isWordChar_of_isAsciiLetter hlet
              rw [show scanAux (c :: cs) false [] = scanAux cs true [c] from by
                    simp [scanAux, hlet],
                  (ih cs hcs).2.2 [c] (by simp)
                    (fun d hd => by rcases List.mem_singleton.mp hd with rfl; exact hlet),
                  show runsBy isWordChar (c :: cs) [] = runsBy isWordChar cs [c] from by
                    simp [runsBy, hword]]
            · rw [Bool.not_eq_true] at hlet
              by_cases hword : isWordChar c = true
              · rw [show scanAux (c :: cs) false [] = scanAux cs true [] from by
                      simp [scanAux, hlet, hword],
                    (ih cs hcs).2.1 [c] (by simp) ⟨c, List.mem_singleton.mpr rfl, hlet⟩,
                    show runsBy isWordChar (c :: cs) [] = runsBy isWordChar cs [c] from by
                      simp [runsBy, hword]]
              · rw [Bool.not_eq_true] at hword
                rw [show scanAux (c :: cs) false [] = scanAux cs false [] from by
                      simp [scanAux, hlet, hword],
                    (ih cs hcs).1,
                    show runsBy isWordChar (c :: cs) [] = runsBy isWordChar cs [] from by
                      simp [runsBy, hword]]
          · -- scan from a word position, no candidate run possible here
            intro acc hne hex
            by_cases hword : isWordChar c = true
            · rw [show scanAux (c :: cs) true [] = scanAux cs true [] from by
                    simp [scanAux, hword],
                  (ih cs hcs).2.1 (c :: acc) (by simp)
                    (by obtain ⟨d, hd, hdp⟩ := hex
                        exact ⟨d, List.mem_cons_of_mem _ hd, hdp⟩),
                  show runsBy isWordChar (c :: cs) acc = runsBy isWordChar cs (c :: acc)
                    from by simp [runsBy, hword]]
            · rw [Bool.not_eq_true] at hword
              have hlet : isAsciiLetter c = false := by
                cases hb : isAsciiLetter c with
                | false => rfl
                | true => rw [isWordChar_of_isAsciiLetter hb] at hword; cases hword
              cases acc with
              | nil => exact absurd rfl hne
              | cons x xs =>
                  rw [show scanAux (c :: cs) true [] = scanAux cs false [] from by
                        simp [scanAux, hlet, hword],
                      (ih cs hcs).1,
                      show runsBy isWordChar (c :: cs) (x :: xs) =
                          (x :: xs).reverse :: runsBy isWordChar cs [] from by
                        simp [runsBy, hword]]
                  rw [List.filter_cons, all_reverse_eq_false hex]
                  simp
          · -- scan inside a candidate all-letter run started at a boundary
            intro r hne hall
            cases r with
            | nil => exact absurd rfl hne
            | cons x xs =>
                by_cases hlet : isAsciiLetter c = true
                · have hword := isWordChar_of_isAsciiLetter hlet
                  rw [show scanAux (c :: cs) true (x :: xs) =
                          scanAux cs true (c :: x :: xs) from by
                        simp [scanAux, hlet],
                      (ih cs hcs).2.2 (c :: x :: xs) (by simp)
                        (fun d hd => by
                          rcases List.mem_cons.mp hd with rfl | hd2
                          · exact hlet
                          · exact hall d hd2),
                      show runsBy isWordChar (c :: cs) (x :: xs) =
                          runsBy isWordChar cs (c :: x :: xs) from by
                        simp [runsBy, hword]]
                · rw [Bool.not_eq_true] at hlet
                  by_cases hword : isWordChar c = true
                  · rw [show scanAux (c :: cs) true (x :: xs) = scanAux cs true []
                          from by simp [scanAux, hlet, hword],
                        (ih cs hcs).2.1 (c :: x :: xs) (by simp)
                          ⟨c, List.mem_cons_self _ _, hlet⟩,
                        show runsBy isWordChar (c :: cs) (x :: xs) =
                            runsBy isWordChar cs (c :: x :: xs) from by
                          simp [runsBy, hword]]
                  · rw [Bool.not_eq_true] at hword
                    rw [show scanAux (c :: cs) true (x :: xs) =
                            (x :: xs).reverse :: scanAux cs false [] from by
                          simp [scanAux, hlet, hword],
                        (ih cs hcs).1,
                        show runsBy isWordChar (c :: cs) (x :: xs) =
                            (x :: xs).reverse :: runsBy isWordChar cs [] from by
                          simp [runsBy, hword]]
                    rw [List.filter_cons, all_reverse_eq_true hall]
                    simp

theorem scanAux_eq_runsBy (l : List Char) :
    scanAux l false [] = (runsBy isWordChar l []).filter (fun r => r.all isAsciiLetter) :=
  (scan_runs l.length l le_rfl).1

/-- Claim C3, counterexample: the claim says the tokenizer extracts exactly
the maximal runs of ASCII letters, with every non-alphabetic character acting
as a word boundary.  On `"abc1def"` that reading yields `["abc", "def"]`, but
the regex `\b[a-zA-Z]+\b` yields no token at all: the digit `1` is a word
character for `\b`, so neither letter run is bounded by word boundaries on
both sides. -/
theorem claim_C3_counterexample :
    tokenizarLatin "abc1def" = [] ∧
    specMaximalLetterRuns "abc1def" = ["abc", "def"] ∧
    (decide (tokenizarLatin "abc1def" = specMaximalLetterRuns "abc1def")) = false := by
  refine ⟨by decide, by decide, by decide⟩

/-- Claim C3 (amended): for every input string, the Latin tokenizer
lowercases the text and extracts, in order of appearance, exactly those
maximal runs of ASCII letters that form a whole maximal run of word
characters — equivalently, a non-alphabetic character acts as a word
boundary only when it is not a digit or underscore (Python's `\b` uses the
word class `\w`, not the letter class). -/
theorem claim_C3_tokenizer (texto : String) :
    tokenizarLatin texto = amendedTokens texto := by
  unfold tokenizarLatin amendedTokens
  rw [scanAux_eq_runsBy]

/-! ### Lemmas about the frequency ranker -/

theorem dedup_go_mem :
    ∀ (l acc : List String) (a : String),
      a ∈ l.foldl (fun acc x => if x ∈ acc then acc else acc ++ [x]) acc ↔
        a ∈ acc ∨ a ∈ l := by
  intro l
  induction l with
  | nil => intro acc a; simp
  | cons x xs ih =>
      intro acc a
      rw [List.foldl_cons, ih]
      by_cases hx : x ∈ acc
      · simp only [hx, if_true, List.mem_cons]
        constructor
        · rintro (h | h)
          · exact Or.inl h
          · exact Or.inr (Or.inr h)
        · rintro (h | h | h)
          · exact Or.inl h
          · exact Or.inl (h ▸ hx)
          · exact Or.inr h
      · simp only [hx, if_false, List.mem_append, List.mem_singleton, List.mem_cons]
        tauto

theorem dedup_go_nodup :
    ∀ (l acc : List String), acc.Nodup →
      (l.foldl (fun acc x => if x ∈ acc then acc else acc ++ [x]) acc).Nodup := by
  intro l
  induction l with
  | nil => intro acc h; exact h
  | cons x xs ih =>
      intro acc h
      rw [List.foldl_cons]
      by_cases hx : x ∈ acc
      · rw [if_pos hx]; exact ih acc h
      · rw [if_neg hx]
        refine ih _ (List.nodup_append.mpr ⟨h, List.nodup_singleton x, ?_⟩)
        intro a ha hax
        exact hx ((List.mem_singleton.mp hax) ▸ ha)

theorem dedup_go_pairwise :
    ∀ (todo done acc : List String),
      (∀ a, a ∈ acc ↔ a ∈ done) →
      List.Pairwise
        (fun a b => List.indexOf a (done ++ todo) < List.indexOf b (done ++ todo)) acc →
      List.Pairwise
        (fun a b => List.indexOf a (done ++ todo) < List.indexOf b (done ++ todo))
        (todo.foldl (fun acc x => if x ∈ acc then acc else acc ++ [x]) acc) := by
  intro todo
  induction todo with
  | nil => intro done acc _ hpw; exact hpw
  | cons x ts ih =>
      intro done acc hmem hpw
      rw [List.foldl_cons]
      have hrw : done ++ x :: ts = (done ++ [x]) ++ ts := by
        rw [List.append_assoc]; rfl
      by_cases hx : x ∈ acc
      · rw [if_pos hx]
        rw [hrw] at hpw ⊢
        refine ih (done ++ [x]) acc (fun a => (hmem a).trans ?_) hpw
        constructor
        · intro h; exact List.mem_append.mpr (Or.inl h)
        · intro h
          rcases List.mem_append.mp h with h1 | h1
          · exact h1
          · exact (List.mem_singleton.mp h1) ▸ ((hmem x).mp hx)
      · rw [if_neg hx]
        have hxdone : x ∉ done := fun h => hx ((hmem x).mpr h)
        have hpw2 : List.Pairwise
            (fun a b => List.indexOf a (done ++ x :: ts) < List.indexOf b (done ++ x :: ts))
            (acc ++ [x]) := by
          refine List.pairwise_append.mpr ⟨hpw, List.pairwise_singleton _ _, ?_⟩
          intro a ha b hb
          rcases List.mem_singleton.mp hb with rfl
          have hadone : a ∈ done := (hmem a).mp ha
          rw [List.indexOf_append_of_mem hadone,
              List.indexOf_append_of_not_mem hxdone, List.indexOf_cons_self]
          exact Nat.lt_of_lt_of_le (List.indexOf_lt_length.mpr hadone)
            (Nat.le_add_right _ _)
        rw [hrw] at hpw2 ⊢
        refine ih (done ++ [x]) (acc ++ [x]) (fun a => ?_) hpw2
        simp only [List.mem_append, List.mem_singleton]
        exact or_congr_left (hmem a)

theorem firstDedup_mem {xs : List String} {a : String} :
    a ∈ firstDedup xs ↔ a ∈ xs := by
  unfold firstDedup
  rw [dedup_go_mem]
  simp

theorem firstDedup_nodup (xs : List String) : (firstDedup xs).Nodup :=
  dedup_go_nodup xs [] List.nodup_nil

theorem firstDedup_pairwise (xs : List String) :
    List.Pairwise (fun a b => List.indexOf a xs < List.indexOf b xs) (firstDedup xs) := by
  have := dedup_go_pairwise xs [] [] (fun _ => by simp) (List.Pairwise.nil)
  simpa using this

theorem firstDedup_perm_dedup (xs : List String) : (firstDedup xs).Perm xs.dedup :=
  (List.perm_ext_iff_of_nodup (firstDedup_nodup xs) (List.nodup_dedup xs)).mpr
    (fun _ => firstDedup_mem.trans List.mem_dedup.symm)

theorem counterItems_mem {xs : List String} {p : String × Nat}
    (h : p ∈ counterItems xs) : p.2 = List.count p.1 xs ∧ p.1 ∈ xs := by
  unfold counterItems at h
  obtain ⟨t, ht, hp⟩ := List.mem_map.mp h
  subst hp
  exact ⟨rfl, firstDedup_mem.mp ht⟩

theorem counterItems_snd_sum (xs : List String) :
    ((counterItems xs).map Prod.snd).sum = xs.length := by
  unfold counterItems
  rw [List.map_map]
  have h1 : ((firstDedup xs).map (fun t => List.count t xs)).sum =
      (xs.dedup.map (fun t => List.count t xs)).sum :=
    ((firstDedup_perm_dedup xs).map (fun t => List.count t xs)).sum_eq
  have h2 : Prod.snd ∘ (fun t => (t, List.count t xs)) = fun t => List.count t xs := rfl
  rw [h2, h1, List.sum_map_count_dedup_eq_length]

theorem insertCountDesc_perm (p : String × Nat) :
    ∀ l, (insertCountDesc p l).Perm (p :: l) := by
  intro l
  induction l with
  | nil => exact List.Perm.refl _
  | cons q qs ih =>
      by_cases h : p.2 ≤ q.2
      · rw [show insertCountDesc p (q :: qs) = q :: insertCountDesc p qs from by
              simp [insertCountDesc, h]]
        exact (ih.cons q).trans (List.Perm.swap p q qs)
      · rw [show insertCountDesc p (q :: qs) = p :: q :: qs from by
              simp [insertCountDesc, h]]

theorem sort_go_perm :
    ∀ (l acc : List (String × Nat)),
      (l.foldl (fun acc p => insertCountDesc p acc) acc).Perm (acc ++ l) := by
  intro l
  induction l with
  | nil => intro acc; simp
  | cons p ps ih =>
      intro acc
      rw [List.foldl_cons]
      refine (ih (insertCountDesc p acc)).trans ?_
      refine (List.Perm.append_right ps (insertCountDesc_perm p acc)).trans ?_
      exact List.perm_middle.symm

theorem sortCountDesc_perm (l : List (String × Nat)) : (sortCountDesc l).Perm l := by
  have := sort_go_perm l []
  simpa [sortCountDesc] using this

theorem insertCountDesc_pairwise {l : List (String × Nat)}
    (h : List.Pairwise (fun a b => b.2 ≤ a.2) l) (p : String × Nat) :
    List.Pairwise (fun a b => b.2 ≤ a.2) (insertCountDesc p l) := by
  induction l with
  | nil => exact List.pairwise_singleton _ _
  | cons q qs ih =>
      obtain ⟨hq, hqs⟩ := List.pairwise_cons.mp h
      by_cases hle : p.2 ≤ q.2
      · rw [show insertCountDesc p (q :: qs) = q :: insertCountDesc p qs from by
              simp [insertCountDesc, hle]]
        refine List.pairwise_cons.mpr ⟨?_, ih hqs⟩
        intro r hr
        rcases List.mem_cons.mp ((insertCountDesc_perm p qs).mem_iff.mp hr) with rfl | h1
        · exact hle
        · exact hq r h1
      · rw [show insertCountDesc p (q :: qs) = p :: q :: qs from by
              simp [insertCountDesc, hle]]
        refine List.pairwise_cons.mpr ⟨?_, h⟩
        intro r hr
        rcases List.mem_cons.mp hr with rfl | h1
        · exact Nat.le_of_lt (Nat.lt_of_not_le hle)
        · exact Nat.le_trans (hq r h1) (Nat.le_of_lt (Nat.lt_of_not_le hle))

theorem sort_go_pairwise :
    ∀ (l acc : List (String × Nat)),
      List.Pairwise (fun a b => b.2 ≤ a.2) acc →
      List.Pairwise (fun a b => b.2 ≤ a.2)
        (l.foldl (fun acc p => insertCountDesc p acc) acc) := by
  intro l
  induction l with
  | nil => intro acc h; exact h
  | cons p ps ih =>
      intro acc h
      rw [List.foldl_cons]
      exact ih _ (insertCountDesc_pairwise h p)

theorem sortCountDesc_pairwise (l : List (String × Nat)) :
    List.Pairwise (fun a b => b.2 ≤ a.2) (sortCountDesc l) :=
  sort_go_pairwise l [] List.Pairwise.nil

theorem insertCountDesc_filter {c : Nat} {l : List (String × Nat)}
    (h : List.Pairwise (fun a b => b.2 ≤ a.2) l) (p : String × Nat) :
    (insertCountDesc p l).filter (fun q => q.2 == c) =
      if p.2 == c then l.filter (fun q => q.2 == c) ++ [p]
      else l.filter (fun q => q.2 == c) := by
  induction l with
  | nil =>
      by_cases hpc : (p.2 == c) = true <;>
        simp [insertCountDesc, List.filter_cons, hpc]
  | cons q qs ih =>
      obtain ⟨hq, hqs⟩ := List.pairwise_cons.mp h
      by_cases hle : p.2 ≤ q.2
      · rw [show insertCountDesc p (q :: qs) = q :: insertCountDesc p qs from by
              simp [insertCountDesc, hle]]
        by_cases hpc : (p.2 == c) = true <;>
          by_cases hqc : (q.2 == c) = true <;>
            simp [List.filter_cons, hpc, hqc, ih hqs]
      · rw [show insertCountDesc p (q :: qs) = p :: q :: qs from by
              simp [insertCountDesc, hle]]
        by_cases hpc : (p.2 == c) = true
        · have hpc2 : p.2 = c := by simpa using hpc
          have hnil : (q :: qs).filter (fun q => q.2 == c) = [] := by
            rw [List.filter_eq_nil_iff]
            intro r hr
            have hrle : r.2 ≤ q.2 := by
              rcases List.mem_cons.mp hr with rfl | h1
              · exact Nat.le_refl _
              · exact hq r h1
            have : r.2 < c := Nat.lt_of_le_of_lt hrle (hpc2 ▸ Nat.lt_of_not_le hle)
            simpa using Nat.ne_of_lt this
          rw [List.filter_cons, if_pos hpc, hnil, hpc]
          simp [hpc2]
        · rw [List.filter_cons, if_neg (by simpa using hpc)]
          simp [hpc]

theorem sort_go_filter :
    ∀ (l acc : List (String × Nat)) (c : Nat),
      List.Pairwise (fun a b => b.2 ≤ a.2) acc →
      (l.foldl (fun acc p => insertCountDesc p acc) acc).filter (fun q => q.2 == c) =
        acc.filter (fun q => q.2 == c) ++ l.filter (fun q => q.2 == c) := by
  intro l
  induction l with
  | nil => intro acc c _; simp
  | cons p ps ih =>
      intro acc c h
      rw [List.foldl_cons, ih _ c (insertCountDesc_pairwise h p),
          insertCountDesc_filter h p]
      by_cases hpc : (p.2 == c) = true <;>
        simp [List.filter_cons, hpc]

theorem sortCountDesc_filter (l : List (String × Nat)) (c : Nat) :
    (sortCountDesc l).filter (fun q => q.2 == c) = l.filter (fun q => q.2 == c) := by
  have := sort_go_filter l [] c List.Pairwise.nil
  simpa [sortCountDesc] using this

/-- Claim C1: for every bucket (multiset of tokens, realised as a list) and
every `top_n ≥ 0`, the frequency ranker returns a sequence of
(token, count) pairs of length `min top_n (number of distinct tokens)`,
sorted by non-increasing count, where each count equals that token's
multiplicity in the bucket (hence is ≥ 1), the sum of the returned counts is
at most the total number of tokens, and `top_n = 0` yields the empty
sequence. -/
theorem claim_C1_frequency_ranker (bucket : List String) (n : Nat) :
    (mostCommon bucket n).length = min n bucket.toFinset.card ∧
    List.Pairwise (fun a b => b.2 ≤ a.2) (mostCommon bucket n) ∧
    (mostCommon bucket n).all
      (fun p => (p.2 == List.count p.1 bucket) && decide (1 ≤ p.2)) = true ∧
    ((mostCommon bucket n).map Prod.snd).sum ≤ bucket.length ∧
    mostCommon bucket 0 = [] := by
  refine ⟨?_, ?_, ?_, ?_, rfl⟩
  · show (List.take n (sortCountDesc (counterItems bucket))).length = _
    rw [List.length_take, (sortCountDesc_perm _).length_eq]
    unfold counterItems
    rw [List.length_map, (firstDedup_perm_dedup bucket).length_eq,
        List.card_toFinset]
  · exact List.Pairwise.sublist (List.take_sublist n _) (sortCountDesc_pairwise _)
  · refine List.all_eq_true.mpr ?_
    intro p hp
    have hp2 : p ∈ counterItems bucket :=
      (sortCountDesc_perm _).mem_iff.mp ((List.take_sublist n _).subset hp)
    obtain ⟨hcount, hmem⟩ := counterItems_mem hp2
    have hpos : 0 < List.count p.1 bucket := List.count_pos_iff.mpr hmem
    simp only [Bool.and_eq_true, beq_iff_eq, decide_eq_true_eq]
    exact ⟨hcount, hcount ▸ hpos⟩
  · have hsum : ((sortCountDesc (counterItems bucket)).map Prod.snd).sum =
        bucket.length := by
      rw [((sortCountDesc_perm (counterItems bucket)).map Prod.snd).sum_eq,
          counterItems_snd_sum]
    have hsplit := List.take_append_drop n (sortCountDesc (counterItems bucket))
    have : ((mostCommon bucket n).map Prod.snd).sum ≤
        ((sortCountDesc (counterItems bucket)).map Prod.snd).sum := by
      conv_rhs => rw [← hsplit]
      rw [List.map_append, List.sum_append]
      exact Nat.le_add_right _ _
    exact hsum ▸ this

/-- Claim C5: whenever entries of the ranked output share one count `c`, the
output lists their tokens in the order of their first occurrences in the
bucket (`List.indexOf` is the position of the first occurrence): the
descending sort by count is stable with respect to first-encountered
order. -/
theorem claim_C5_stable_ties (bucket : List String) (n : Nat) (c : Nat) :
    List.Pairwise (fun a b => List.indexOf a bucket < List.indexOf b bucket)
      (((mostCommon bucket n).filter (fun p => p.2 == c)).map Prod.fst) := by
  have h1 : ((mostCommon bucket n).filter (fun p => p.2 == c)).Sublist
      ((sortCountDesc (counterItems bucket)).filter (fun p => p.2 == c)) :=
    List.Sublist.filter _ (List.take_sublist n _)
  rw [sortCountDesc_filter] at h1
  have h2 : ((counterItems bucket).filter (fun p => p.2 == c)).map Prod.fst =
      (firstDedup bucket).filter (fun t => List.count t bucket == c) := by
    unfold counterItems
    rw [List.filter_map, List.map_map]
    have hid : (Prod.fst ∘ fun t : String => (t, List.count t bucket)) =
        fun t : String => t := rfl
    rw [hid, List.map_id']
    rfl
  have h3 := List.Sublist.map Prod.fst h1
  rw [h2] at h3
  exact List.Pairwise.sublist (h3.trans (List.filter_sublist _))
    (firstDedup_pairwise bucket)

/-! ### The Latin classification loop -/

theorem latin_go :
    ∀ (l : List String) (acc : List String × List String),
      l.foldl latinStep acc =
        (acc.1 ++ l.filter (fun p => !esVerbo p),
         acc.2 ++ l.filter (fun p => esVerbo p)) := by
  intro l
  induction l with
  | nil => intro acc; simp
  | cons p ps ih =>
      intro acc
      rw [List.foldl_cons, ih]
      by_cases hv : esVerbo p = true
      · rw [show latinStep acc p = (acc.1, acc.2 ++ [p]) from by simp [latinStep, hv]]
        simp [List.filter_cons, hv]
      · rw [Bool.not_eq_true] at hv
        rw [show latinStep acc p = (acc.1 ++ [p], acc.2) from by simp [latinStep, hv]]
        simp [List.filter_cons, hv]

/-- Claim C2: every token of a Latin input that survives filtering is placed
in exactly one of the two buckets — the verb bucket exactly when it ends
with a suffix of the fixed set, the word bucket otherwise; counts add up
(no surviving token is dropped) and no token occurs in both buckets. -/
theorem claim_C2_latin_partition (texto : String) (p : String) :
    (latinBuckets (palabrasFiltradas texto)).1 =
      (palabrasFiltradas texto).filter
        (fun q => !(terminaciones_verbos.any (fun s => pyEndsWith q s))) ∧
    (latinBuckets (palabrasFiltradas texto)).2 =
      (palabrasFiltradas texto).filter
        (fun q => terminaciones_verbos.any (fun s => pyEndsWith q s)) ∧
    List.count p (latinBuckets (palabrasFiltradas texto)).1 +
      List.count p (latinBuckets (palabrasFiltradas texto)).2 =
      List.count p (palabrasFiltradas texto) ∧
    List.count p (latinBuckets (palabrasFiltradas texto)).1 *
      List.count p (latinBuckets (palabrasFiltradas texto)).2 = 0 := by
  have h := latin_go (palabrasFiltradas texto) ([], [])
  have h1 : (latinBuckets (palabrasFiltradas texto)).1 =
      (palabrasFiltradas texto).filter (fun q => !esVerbo q) := by
    unfold latinBuckets
    rw [h]
    simp
  have h2 : (latinBuckets (palabrasFiltradas texto)).2 =
      (palabrasFiltradas texto).filter (fun q => esVerbo q) := by
    unfold latinBuckets
    rw [h]
    simp
  refine ⟨h1, h2, ?_, ?_⟩
  · rw [h1, h2]
    by_cases hv : esVerbo p = true
    · have hz : List.count p ((palabrasFiltradas texto).filter (fun q => !esVerbo q)) = 0 := by
        rw [List.count_eq_zero]
        intro hm
        have := List.of_mem_filter hm
        rw [hv] at this
        cases this
      rw [hz, List.count_filter hv, Nat.zero_add]
    · rw [Bool.not_eq_true] at hv
      have hz : List.count p ((palabrasFiltradas texto).filter (fun q => esVerbo q)) = 0 := by
        rw [List.count_eq_zero]
        intro hm
        have := List.of_mem_filter hm
        rw [hv] at this
        cases this
      rw [hz, List.count_filter (by rw [hv]; rfl), Nat.add_zero]
  · rw [h1, h2]
    by_cases hv : esVerbo p = true
    · have hz : List.count p ((palabrasFiltradas texto).filter (fun q => !esVerbo q)) = 0 := by
        rw [List.count_eq_zero]
        intro hm
        have := List.of_mem_filter hm
        rw [hv] at this
        cases this
      rw [hz, Nat.zero_mul]
    · rw [Bool.not_eq_true] at hv
      have hz : List.count p ((palabrasFiltradas texto).filter (fun q => esVerbo q)) = 0 := by
        rw [List.count_eq_zero]
        intro hm
        have := List.of_mem_filter hm
        rw [hv] at this
        cases this
      rw [hz, Nat.mul_zero]

/-! ### The English bucketing loop -/

theorem english_go :
    ∀ (doc : List SpacyToken) (acc : List String × List String),
      doc.foldl englishStep acc =
        (acc.1 ++ doc.filterMap (fun t =>
            if aceptado t && ["NOUN", "PROPN", "ADJ"].contains t.pos_
            then some (pyLower t.lemma_) else none),
         acc.2 ++ doc.filterMap (fun t =>
            if aceptado t && (t.pos_ == "VERB")
            then some (pyLower t.lemma_) else none)) := by
  intro doc
  induction doc with
  | nil => intro acc; simp
  | cons t ts ih =>
      intro acc
      rw [List.foldl_cons, ih]
      by_cases hac : aceptado t = true
      · by_cases hpos : (t.pos_ == "VERB") = true
        · have hpe : t.pos_ = "VERB" := by simpa using hpos
          have hcont : List.contains ["NOUN", "PROPN", "ADJ"] t.pos_ = false := by
            rw [hpe]; decide
          have hw : List.filterMap (fun u : SpacyToken =>
                if aceptado u && ["NOUN", "PROPN", "ADJ"].contains u.pos_
                then some (pyLower u.lemma_) else none) (t :: ts) =
              List.filterMap (fun u : SpacyToken =>
                if aceptado u && ["NOUN", "PROPN", "ADJ"].contains u.pos_
                then some (pyLower u.lemma_) else none) ts :=
            List.filterMap_cons_none (by simp only [hac, hcont]; rfl)
          have hv : List.filterMap (fun u : SpacyToken =>
                if aceptado u && (u.pos_ == "VERB")
                then some (pyLower u.lemma_) else none) (t :: ts) =
              pyLower t.lemma_ :: List.filterMap (fun u : SpacyToken =>
                if aceptado u && (u.pos_ == "VERB")
                then some (pyLower u.lemma_) else none) ts :=
            List.filterMap_cons_some (by simp only [hac, hpos]; rfl)
          rw [show englishStep acc t = (acc.1, acc.2 ++ [pyLower t.lemma_]) from by
                simp only [englishStep, hac, hpos]; rfl,
              hw, hv]
          simp
        · by_cases hcont : List.contains ["NOUN", "PROPN", "ADJ"] t.pos_ = true
          · have hposf : (t.pos_ == "VERB") = false := by
              rw [Bool.not_eq_true] at hpos; exact hpos
            have hw : List.filterMap (fun u : SpacyToken =>
                  if aceptado u && ["NOUN", "PROPN", "ADJ"].contains u.pos_
                  then some (pyLower u.lemma_) else none) (t :: ts) =
                pyLower t.lemma_ :: List.filterMap (fun u : SpacyToken =>
                  if aceptado u && ["NOUN", "PROPN", "ADJ"].contains u.pos_
                  then some (pyLower u.lemma_) else none) ts :=
              List.filterMap_cons_some (by simp only [hac, hcont]; rfl)
            have hv : List.filterMap (fun u : SpacyToken =>
                  if aceptado u && (u.pos_ == "VERB")
                  then some (pyLower u.lemma_) else none) (t :: ts) =
                List.filterMap (fun u : SpacyToken =>
                  if aceptado u && (u.pos_ == "VERB")
                  then some (pyLower u.lemma_) else none) ts :=
              List.filterMap_cons_none (by simp only [hac, hposf]; rfl)
            rw [show englishStep acc t = (acc.1 ++ [pyLower t.lemma_], acc.2) from by
                  simp only [englishStep, hac, hposf, hcont]; rfl,
                hw, hv]
            simp
          · rw [Bool.not_eq_true] at hpos hcont
            have hw : List.filterMap (fun u : SpacyToken =>
                  if aceptado u && ["NOUN", "PROPN", "ADJ"].contains u.pos_
                  then some (pyLower u.lemma_) else none) (t :: ts) =
                List.filterMap (fun u : SpacyToken =>
                  if aceptado u && ["NOUN", "PROPN", "ADJ"].contains u.pos_
                  then some (pyLower u.lemma_) else none) ts :=
              List.filterMap_cons_none (by simp only [hac, hcont]; rfl)
            have hv : List.filterMap (fun u : SpacyToken =>
                  if aceptado u && (u.pos_ == "VERB")
                  then some (pyLower u.lemma_) else none) (t :: ts) =
                List.filterMap (fun u : SpacyToken =>
                  if aceptado u && (u.pos_ == "VERB")
                  then some (pyLower u.lemma_) else none) ts :=
              List.filterMap_cons_none (by simp only [hac, hpos]; rfl)
            rw [show englishStep acc t = acc from by
                  simp only [englishStep, hac, hpos, hcont]; rfl,
                hw, hv]
      · rw [Bool.not_eq_true] at hac
        have hw : List.filterMap (fun u : SpacyToken =>
              if aceptado u && ["NOUN", "PROPN", "ADJ"].contains u.pos_
              then some (pyLower u.lemma_) else none) (t :: ts) =
            List.filterMap (fun u : SpacyToken =>
              if aceptado u && ["NOUN", "PROPN", "ADJ"].contains u.pos_
              then some (pyLower u.lemma_) else none) ts :=
          List.filterMap_cons_none (by simp only [hac]; rfl)
        have hv : List.filterMap (fun u : SpacyToken =>
              if aceptado u && (u.pos_ == "VERB")
              then some (pyLower u.lemma_) else none) (t :: ts) =
            List.filterMap (fun u : SpacyToken =>
              if aceptado u && (u.pos_ == "VERB")
              then some (pyLower u.lemma_) else none) ts :=
          List.filterMap_cons_none (by simp only [hac]; rfl)
        rw [show englishStep acc t = acc from by
              simp only [englishStep, hac]; rfl,
            hw, hv]

/-- Claim C4: with the part-of-speech tagger injected, a token contributes to
a bucket only if it is accepted (alphabetic, not a stopword, surface length
> 2); the verb bucket holds exactly the lowercased lemmas of accepted tokens
tagged `VERB`, counted per such token, the word bucket exactly those of
accepted tokens tagged `NOUN`, `PROPN` or `ADJ`, and accepted tokens with
any other tag contribute to neither bucket. -/
theorem claim_C4_english_buckets (doc : List SpacyToken) (w : String) :
    List.count w (englishBuckets doc).2 =
      doc.countP (fun t => aceptado t && (t.pos_ == "VERB") &&
        (pyLower t.lemma_ == w)) ∧
    List.count w (englishBuckets doc).1 =
      doc.countP (fun t => aceptado t && ["NOUN", "PROPN", "ADJ"].contains t.pos_ &&
        (pyLower t.lemma_ == w)) := by
  have h := english_go doc ([], [])
  have h2 : englishBuckets doc =
      (doc.filterMap (fun t =>
          if aceptado t && ["NOUN", "PROPN", "ADJ"].contains t.pos_
          then some (pyLower t.lemma_) else none),
       doc.filterMap (fun t =>
          if aceptado t && (t.pos_ == "VERB")
          then some (pyLower t.lemma_) else none)) := by
    unfold englishBuckets
    rw [h]
    simp
  rw [h2]
  constructor
  · rw [List.count_filterMap]
    refine List.countP_congr ?_
    intro t _
    by_cases hc : (aceptado t && (t.pos_ == "VERB")) = true <;> simp [hc]
  · rw [List.count_filterMap]
    refine List.countP_congr ?_
    intro t _
    by_cases hc : (aceptado t && List.contains ["NOUN", "PROPN", "ADJ"] t.pos_) = true <;>
      simp [hc]

/-- Claim C7: on the Latin path, the cleaned input
`"puella amat puellam et cantat"` yields the word bucket ranked as
`[("puella", 1), ("puellam", 1)]` and the verb bucket ranked as
`[("amat", 1), ("cantat", 1)]`: the stopword `"et"` is removed, `"amat"` and
`"cantat"` match the suffix `"at"`, and `"puella"` / `"puellam"` stay
distinct tokens (no stemming). -/
theorem claim_C7_latin_scenario :
    analizar_texto_latin_basico "puella amat puellam et cantat" 15 =
      ([("puella", 1), ("puellam", 1)], [("amat", 1), ("cantat", 1)]) := by
  decide

/-- Claim C8: every Latin token of length > 2 that is not a stopword and ends
in `"are"` is classified as a verb (the classification loop appends it to the
verb bucket), preserving the documented false positive of the heuristic
(e.g. the non-verb `"mare"`). -/
theorem claim_C8_are_heuristic (p : String)
    (_hlen : 2 < p.length) (_hstop : stopwords_latin.contains p = false)
    (hare : pyEndsWith p "are" = true) :
    esVerbo p = true ∧
    ∀ acc : List String × List String, latinStep acc p = (acc.1, acc.2 ++ [p]) := by
  have hv : esVerbo p = true := List.any_eq_true.mpr ⟨"are", by decide, hare⟩
  exact ⟨hv, fun acc => by simp [latinStep, hv]⟩

/-- Witness for claim C8's theorem at the documented false positive
`"mare"`. -/
theorem claim_C8_witness :
    esVerbo "mare" = true ∧
    latinStep ([], []) "mare" = ([], ["mare"]) := by
  have h := claim_C8_are_heuristic "mare" (by decide) (by decide) (by decide)
  exact ⟨h.1, h.2 ([], [])⟩

/-- Claim C9, counterexample: the suffix set is not mutually exclusive —
`"at"` and `"bat"` are both in the set and `"at"` is a proper suffix of
`"bat"` (likewise `"it"` of `"avit"`), refuting the claim that no ending in
the set is a proper suffix of another. -/
theorem claim_C9_counterexample :
    "at" ∈ terminaciones_verbos ∧ "bat" ∈ terminaciones_verbos ∧
    ("at" == "bat") = false ∧ "at".data.isSuffixOf "bat".data = true := by
  refine ⟨by decide, by decide, by decide, by decide⟩

theorem any_perm_invariant {l₁ l₂ : List String} (h : l₁.Perm l₂)
    (f : String → Bool) : l₁.any f = l₂.any f := by
  cases h2 : l₂.any f with
  | true =>
      obtain ⟨x, hx, hfx⟩ := List.any_eq_true.mp h2
      exact List.any_eq_true.mpr ⟨x, h.mem_iff.mpr hx, hfx⟩
  | false =>
      cases h1 : l₁.any f with
      | false => rfl
      | true =>
          obtain ⟨x, hx, hfx⟩ := List.any_eq_true.mp h1
          have h3 := List.any_eq_true.mpr ⟨x, h.mem_iff.mp hx, hfx⟩
          rw [h3] at h2
          cases h2

/-- Claim C9 (amended): the fixed suffix set is not mutually exclusive
(`"at"` is a proper suffix of `"bat"`), yet the suffix check still needs no
disambiguation order: it is a plain disjunction of exact suffix matches, so
any checking order (any permutation of the suffix list) yields the same
classification. -/
theorem claim_C9_order_independent :
    ("at" ∈ terminaciones_verbos ∧ "bat" ∈ terminaciones_verbos ∧
      ("at" == "bat") = false ∧ "at".data.isSuffixOf "bat".data = true) ∧
    ∀ l : List String, l.Perm terminaciones_verbos →
      ∀ p : String, l.any (fun t => pyEndsWith p t) = esVerbo p := by
  refine ⟨⟨by decide, by decide, by decide, by decide⟩, ?_⟩
  intro l hperm p
  exact any_perm_invariant hperm (fun t => pyEndsWith p t)

/-- Witness for claim C9's amended theorem: the reversed suffix list is a
permutation of the original and classifies `"mare"` identically. -/
theorem claim_C9_witness :
    terminaciones_verbos.reverse.any (fun t => pyEndsWith "mare" t) = esVerbo "mare" :=
  claim_C9_order_independent.2 terminaciones_verbos.reverse
    (List.reverse_perm terminaciones_verbos) "mare"

theorem pyTruthy_iff (x : Option String) :
    pyTruthy x = true ↔ ∃ s, x = some s ∧ (s == "") = false := by
  cases x with
  | none => simp [pyTruthy]
  | some s => simp [pyTruthy]

/-- Claim C10: `main` proceeds to analysis and report writing only when both
fetched documents yield non-empty text — a fetch that raises returns
`(None, None)`, a fetch that succeeds without a body-content element yields
the empty text, and either case (or any empty cleaned text) aborts the run
with no analysis and no report. -/
theorem claim_C10_main_gate (tagger : String → List SpacyToken)
    (o_en o_la : FetchOutcome) (t : Option String) :
    scrapear_wikipedia FetchOutcome.exn = (none, none) ∧
    (scrapear_wikipedia (FetchOutcome.page t none)).2 = some "" ∧
    mainModel tagger FetchOutcome.exn o_la = none ∧
    mainModel tagger o_en FetchOutcome.exn = none ∧
    mainModel tagger (FetchOutcome.page t none) o_la = none ∧
    mainModel tagger o_en (FetchOutcome.page t none) = none ∧
    ((mainModel tagger o_en o_la).isSome = true ↔
      (∃ s : String, (scrapear_wikipedia o_en).2 = some s ∧ (s == "") = false) ∧
      (∃ s : String, (scrapear_wikipedia o_la).2 = some s ∧ (s == "") = false)) := by
  refine ⟨rfl, ?_, ?_, ?_, ?_, ?_, ?_⟩
  · cases t <;> rfl
  · simp [mainModel, scrapear_wikipedia, pyTruthy]
  · simp [mainModel, scrapear_wikipedia, pyTruthy]
  · cases t <;> simp [mainModel, scrapear_wikipedia, pyTruthy]
  · cases t <;> simp [mainModel, scrapear_wikipedia, pyTruthy]
  · rw [show (mainModel tagger o_en o_la).isSome =
        (pyTruthy (scrapear_wikipedia o_en).2 && pyTruthy (scrapear_wikipedia o_la).2)
        from by
          simp only [mainModel]
          cases hb : (pyTruthy (scrapear_wikipedia o_en).2 &&
              pyTruthy (scrapear_wikipedia o_la).2) <;> simp [hb]]
    rw [Bool.and_eq_true]
    rw [pyTruthy_iff, pyTruthy_iff]

end Ejemplo
